import Mathlib

/-!
Verification development for the HighOrderTFEM repository: a linear
finite-element heat-equation solver over triangular meshes, with a
mesh element-coloring scheduler and pluggable scatter-add strategies.

The C++ sources are shallowly embedded: Kokkos views become Lean
functions or lists, `double` arithmetic is modelled over an arbitrary
field (exact arithmetic, so summation order is immaterial), and the
sequential serializations of the parallel dispatch loops are made
explicit. Parallel loops whose iterations write disjoint locations
(or commute, as exact additions do) are modelled by their ascending-
index serialization; permutation-invariance of the scatter-add fold
is proved where a claim depends on it.
-/

/-- A triangular mesh region, holding the IDs of its three vertex points
(`Region` in `include/mesh.hpp`, a struct of three `pointID`s accessed
with `operator[]`). -/
structure Region where
  p0 : ℕ
  p1 : ℕ
  p2 : ℕ
deriving DecidableEq, Repr

/-- Vertex access `element[j]` for `j = 0, 1, 2`. -/
def Region.get (r : Region) : Fin 3 → ℕ
  | 0 => r.p0
  | 1 => r.p1
  | 2 => r.p2

/-- Two regions share a point ID: some vertex of `r` equals some vertex of
`s`. This is the conflict relation of the element coloring. -/
def sharesPoint (r s : Region) : Prop :=
  ∃ i j : Fin 3, r.get i = s.get j

instance (r s : Region) : Decidable (sharesPoint r s) := by
  unfold sharesPoint; infer_instance

/-- The mesh data model (`Mesh` in `include/mesh.hpp`): point coordinates,
edges as pairs of point IDs, triangular regions, the flattened entries of
the boundary-edge CSR graph, a per-point boundary flag, and the count of
boundary points. Coordinates are over an arbitrary type `α` (the C++ uses
`double`). -/
structure Mesh (α : Type) where
  points : List (α × α)
  edges : List (ℕ × ℕ)
  regions : List Region
  boundary_edges : List ℕ := []
  boundary_points : ℕ → Bool := fun _ => false
  n_boundary_points : ℕ := 0

instance {α : Type} : Inhabited (Mesh α) :=
  ⟨{ points := [], edges := [], regions := [] }⟩

/-- `Mesh::point_count()`. -/
def Mesh.point_count {α : Type} (m : Mesh α) : ℕ := m.points.length

/-- `Mesh::edge_count()`. -/
def Mesh.edge_count {α : Type} (m : Mesh α) : ℕ := m.edges.length

/-- `Mesh::region_count()`. -/
def Mesh.region_count {α : Type} (m : Mesh α) : ℕ := m.regions.length

/-- `Mesh::boundary_edge_count()`: the extent of the boundary-edge CSR
entries array. -/
def Mesh.boundary_edge_count {α : Type} (m : Mesh α) : ℕ := m.boundary_edges.length

/-- `mesh.regions(i)`. -/
def Mesh.region {α : Type} (m : Mesh α) (i : ℕ) : Region :=
  m.regions.getD i ⟨0, 0, 0⟩

/-- `mesh.points(i)`. -/
def Mesh.point {α : Type} [Zero α] (m : Mesh α) (i : ℕ) : α × α :=
  m.points.getD i (0, 0)

/-- `mesh.edges(i)`. -/
def Mesh.edge {α : Type} (m : Mesh α) (i : ℕ) : ℕ × ℕ :=
  m.edges.getD i (0, 0)

/-! ## Scatter-add execution model

A per-element kernel written against `distribute_work` + `contribute`
is modelled by the finite list of `(destination slot, value)` pairs it
emits for a given element; `contribute` is addition into a point-indexed
buffer. Running a kernel over a dispatch list folds those scatter-adds
left to right. -/

/-- Execute a list of `contribute(dest, value)` calls in order: each adds
`value` into slot `dest` of the buffer (`*dest += contribution`). -/
def scatterList {α : Type} [Add α] (cs : List (ℕ × α)) (w : ℕ → α) : ℕ → α :=
  cs.foldl (fun cur c => Function.update cur c.1 (cur c.1 + c.2)) w

/-- Run a kernel `f` (mapping an element to its emitted contributions)
over a dispatch list of elements, scatter-adding into buffer `w`. -/
def runKernel {α : Type} [Add α] (f : Region → List (ℕ × α)) (d : List Region)
    (w : ℕ → α) : ℕ → α :=
  d.foldl (fun cur e => scatterList (f e) cur) w

/-- Total value contributed to slot `p` by a contribution list. -/
def listContribAt {α : Type} [AddCommMonoid α] (cs : List (ℕ × α)) (p : ℕ) : α :=
  ((cs.filter (fun c => c.1 == p)).map Prod.snd).sum

/-- Total value contributed to slot `p` by a kernel over a dispatch list. -/
def dispatchContribAt {α : Type} [AddCommMonoid α] (f : Region → List (ℕ × α))
    (d : List Region) (p : ℕ) : α :=
  (d.map (fun e => listContribAt (f e) p)).sum

/-! ## Element coloring (`src/mesh/mesh_color.cpp`)

`MeshColorMap::do_color` obtains a distance-2 bipartite row coloring of
the element-to-point incidence graph from the KokkosGraph library
(`bipartite_color_rows`, an external dependency: per its contract,
quoted in the source's comment, elements sharing a vertex receive
different colors, and colors are `1 .. n_colors`). That library output
enters the model as the parameter `colors` (with its contract as
hypotheses where needed), and the code under `src/` — the three-pass
counting sort regrouping elements into color-contiguous storage — is
embedded below. The pass-3 scatter reserves slots with an atomic
fetch-and-increment; it is serialized here in ascending element order,
a valid serialization of that loop. -/

/-- One step of the counting-sort scatter: element `i` is appended to the
bucket of its color (`region_to_colors(i) - 1`; library colors start at
1 but the arrays start at 0). -/
def bucketStep (colors : ℕ → ℕ) (b : ℕ → List ℕ) (i : ℕ) : ℕ → List ℕ :=
  fun c => if colors i - 1 = c then b c ++ [i] else b c

/-- The per-color buckets produced by scattering elements `0 .. n-1` in
ascending order. Bucket `c` lists the element IDs of color `c`, in the
order they were placed at offsets `color_index(c) + fetch_add(...)`. -/
def colorBuckets (colors : ℕ → ℕ) (n : ℕ) : ℕ → List ℕ :=
  (List.range n).foldl (bucketStep colors) (fun _ => [])

/-- The color map built by `MeshColorMap::do_color`: the number of colors,
the prefix-sum index array (entry `c` is the start offset of color `c` in
the color-contiguous storage), the flat array of element IDs sorted to be
color-contiguous (`color_member_ids`), and the corresponding regions
copied by value (`color_members(place) = mesh.regions(i)`). -/
structure MeshColorMap where
  n_colors : ℕ
  color_index : ℕ → ℕ
  color_ids : List ℕ
  color_members : List Region

/-- `MeshColorMap::do_color`, given the mesh and the library's coloring
output (`region_to_colors` and its color count). Pass 1 counts elements
per color, pass 2 prefix-sums the counts into start offsets, pass 3
scatters each element (and its ID) into its color's slice; the composite
effect under ascending serialization is recorded here. -/
def MeshColorMap.do_color {α : Type} (mesh : Mesh α) (colors : ℕ → ℕ) (nc : ℕ) :
    MeshColorMap where
  n_colors := nc
  color_index := fun c =>
    ((List.range c).map (fun c2 => (colorBuckets colors mesh.region_count c2).length)).sum
  color_ids := (List.range nc).flatMap (colorBuckets colors mesh.region_count)
  color_members :=
    ((List.range nc).flatMap (colorBuckets colors mesh.region_count)).map mesh.region

/-- `MeshColorMap::color_count()`. -/
def MeshColorMap.color_count (M : MeshColorMap) : ℕ := M.n_colors

/-- `MeshColorMap::member_count(color)`:
`color_index_host(color + 1) - color_index_host(color)`. -/
def MeshColorMap.member_count (M : MeshColorMap) (c : ℕ) : ℕ :=
  M.color_index (c + 1) - M.color_index c

/-- `MeshColorMap::color_member_ids(color)`: the subview of the flat ID
array for the range `[color_index(color), color_index(color + 1))`. -/
def MeshColorMap.color_member_ids (M : MeshColorMap) (c : ℕ) : List ℕ :=
  (M.color_ids.drop (M.color_index c)).take (M.member_count c)

/-- `MeshColorMap::color_member_regions(color)`: the subview of the flat
region array for the range `[color_index(color), color_index(color + 1))`. -/
def MeshColorMap.color_member_regions (M : MeshColorMap) (c : ℕ) : List Region :=
  (M.color_members.drop (M.color_index c)).take (M.member_count c)

/-- A two-element mesh whose triangles are vertex-disjoint; used to
instantiate the coloring theorems at a concrete input. -/
def meshW : Mesh ℚ :=
  { points := [], edges := [], regions := [⟨0, 1, 2⟩, ⟨3, 4, 5⟩] }

/-- A concrete one-color assignment for `meshW` (colors start at 1). -/
def colorsW : ℕ → ℕ := fun _ => 1

/-! ## Scatter-add patterns (`include/scatter_add_pattern.hpp`) -/

/-- `AtomicElementScatterAdd::distribute_work`: one parallel pass over all
`element_id` in `[0, region_count())`, invoking the functor on
`mesh.regions(element_id)`; `contribute` is `Kokkos::atomic_add`. The
invocation sequence (serialized in ascending id order; exact addition
makes every serialization equal, `runKernel_perm`) is this list. -/
def AtomicElementScatterAdd.dispatch {α : Type} (mesh : Mesh α) : List Region :=
  (List.range mesh.region_count).map mesh.region

/-- The effect of `AtomicElementScatterAdd::distribute_work(functor)` on a
point-indexed buffer, for a functor that emits scatter-add contributions. -/
def AtomicElementScatterAdd.distribute_work {α : Type} [Add α] (mesh : Mesh α)
    (f : Region → List (ℕ × α)) (w : ℕ → α) : ℕ → α :=
  runKernel f (AtomicElementScatterAdd.dispatch mesh) w

/-- `ColoredElementScatterAdd::distribute_work`'s invocation sequence:
color classes in index order, each class's `color_member_regions` slice in
slot order, with a fence between colors. -/
def ColoredElementScatterAdd.dispatch (M : MeshColorMap) : List Region :=
  (List.range M.n_colors).flatMap M.color_member_regions

/-- The effect of `ColoredElementScatterAdd::distribute_work(functor)`:
for each color in index order, run the functor over that color class
(`contribute` is a plain `+=`), fencing before the next color. -/
def ColoredElementScatterAdd.distribute_work {α : Type} [Add α] (M : MeshColorMap)
    (f : Region → List (ℕ × α)) (w : ℕ → α) : ℕ → α :=
  (List.range M.n_colors).foldl
    (fun cur c => runKernel f (M.color_member_regions c) cur) w

/-- Modelled from the spec: `SerialElementScatterAdd` is declared in
`scatter_pattern.hpp`, which is not among the sources (only its users
are). Per the spec it iterates all elements one at a time on a single
thread, in element order, and its `contribute` is a plain add. -/
def SerialElementScatterAdd.dispatch {α : Type} (mesh : Mesh α) : List Region :=
  (List.range mesh.region_count).map mesh.region

/-- Modelled from the spec: the effect of
`SerialElementScatterAdd::distribute_work(functor)` — a single-threaded
pass over all elements with plain adds. -/
def SerialElementScatterAdd.distribute_work {α : Type} [Add α] (mesh : Mesh α)
    (f : Region → List (ℕ × α)) (w : ℕ → α) : ℕ → α :=
  runKernel f (SerialElementScatterAdd.dispatch mesh) w

/-- A two-triangle mesh sharing point 0, colored with two colors; used to
instantiate the scatter-pattern theorems at a concrete input. -/
def meshW2 : Mesh ℚ :=
  { points := [(0, 0), (1, 0), (0, 1), (-1, 0), (0, -1)]
  , edges := []
  , regions := [⟨0, 1, 2⟩, ⟨0, 3, 4⟩] }

/-- A concrete two-color assignment for `meshW2` (colors start at 1). -/
def colorsW2 : ℕ → ℕ := fun i => i + 1

/-! ## Mass-matrix assembly (`src/fem/solver.cpp`) -/

/-- `det_jacobian(pts)` (solver.cpp:134): the Jacobian determinant of the
map from the reference triangle,
`0.25 * ((p2x - p1x) * (p0y - p1y) - (p0x - p1x) * (p2y - p1y))`. -/
def det_jacobian {α : Type} [Field α] (pts : Fin 3 → α × α) : α :=
  1 / 4 * (((pts 2).1 - (pts 1).1) * ((pts 0).2 - (pts 1).2)
    - ((pts 0).1 - (pts 1).1) * ((pts 2).2 - (pts 1).2))

/-- `SolverImpl::MassMatrixFunctor::operator()(element)`: fetch the
element's point coordinates, compute `|J|`, and `contribute` the lumped
per-point mass `jacob * 2 / 3` at each of the three vertex points. (The
functor also carries `k` and `dt`, unused by this kernel.) -/
def massContribs {α : Type} [Field α] (mesh : Mesh α) (e : Region) : List (ℕ × α) :=
  let pts : Fin 3 → α × α := fun j => mesh.point (e.get j)
  let jacob := det_jacobian pts
  let c := jacob * 2 / 3
  [(e.get 0, c), (e.get 1, c), (e.get 2, c)]

/-- `Solver::setup_mass_matrix`: dispatch `MassMatrixFunctor` through the
configured scatter pattern over the zero-initialized `point_mass_inv`
buffer, fence, then invert every entry in place
(`point_mass_inv(i) = 1 / point_mass_inv(i)` for `i < point_count()`).
`dispatch` is the pattern's element sequence. -/
def setup_mass_matrix {α : Type} [Field α] (mesh : Mesh α) (dispatch : List Region) :
    ℕ → α :=
  let point_mass_inv := runKernel (massContribs mesh) dispatch (fun _ => 0)
  fun p => if p < mesh.point_count then 1 / point_mass_inv p else point_mass_inv p

/-- The total lumped mass accumulated at point `p`: over all mesh elements,
a `(2/3) * |J|` term for each vertex slot holding `p`. -/
def massTotal {α : Type} [Field α] (mesh : Mesh α) (p : ℕ) : α :=
  (mesh.regions.map (fun e =>
    (if e.get 0 = p then det_jacobian (fun j => mesh.point (e.get j)) * 2 / 3 else 0)
    + ((if e.get 1 = p then det_jacobian (fun j => mesh.point (e.get j)) * 2 / 3 else 0)
      + (if e.get 2 = p then det_jacobian (fun j => mesh.point (e.get j)) * 2 / 3
          else 0)))).sum

/-! ## Per-element step kernel (`src/fem/solver.cpp`, `ElementContributionFunctor`) -/

/-- The solver's mutable state (`Solver` in `include/solver.hpp`): the
current and previous point-weight buffers, the inverse lumped-mass
buffer, and the step counter. -/
structure SolverState (α : Type) where
  current_point_weights : ℕ → α
  prev_point_weights : ℕ → α
  point_mass_inv : ℕ → α
  n_total_steps : ℕ

/-- `SolverImpl::ElementContributionFunctor::operator()(element)`,
transcribed from solver.cpp:163-210: fetch coordinates, compute `|J|`,
the change-of-variable partials, the previous-field gradients, and for
each vertex `j` the basis-gradient interaction
`c = 2 * jacob * (dp_dx * du_dx + dp_dy * du_dy)`, contributing
`-k * dt * inv_mass(element[j]) * c` at `element[j]`. -/
def elementContribs {α : Type} [Field α] (mesh : Mesh α)
    (prev_points inv_mass : ℕ → α) (k dt : α) (e : Region) : List (ℕ × α) :=
  let pts : Fin 3 → α × α := fun j => mesh.point (e.get j)
  let jacob := det_jacobian pts
  let dx_de := 1 / 2 * ((pts 2).1 - (pts 1).1)
  let dx_dn := 1 / 2 * ((pts 0).1 - (pts 1).1)
  let dy_de := 1 / 2 * ((pts 2).2 - (pts 1).2)
  let dy_dn := 1 / 2 * ((pts 0).2 - (pts 1).2)
  let du_de := 1 / 2 * (prev_points (e.get 2) - prev_points (e.get 1))
  let du_dn := 1 / 2 * (prev_points (e.get 0) - prev_points (e.get 1))
  let du_dx := 1 / jacob * (dy_dn * du_de - dy_de * du_dn)
  let du_dy := 1 / jacob * (-dx_dn * du_de + dx_de * du_dn)
  let contrib : Fin 3 → α := fun j =>
    let dp_dx := match j with
      | 0 => 1 / 2 / jacob * (-dy_de)
      | 1 => 1 / 2 / jacob * (-dy_dn + dy_de)
      | 2 => 1 / 2 / jacob * dy_dn
    let dp_dy := match j with
      | 0 => 1 / 2 / jacob * dx_de
      | 1 => 1 / 2 / jacob * (dx_dn - dx_de)
      | 2 => 1 / 2 / jacob * (-dx_dn)
    let c := 2 * jacob * (dp_dx * du_dx + dp_dy * du_dy) ;
    -k * dt * inv_mass (e.get j) * c
  [(e.get 0, contrib 0), (e.get 1, contrib 1), (e.get 2, contrib 2)]

/-- The physical-coordinate gradient of the linear basis function of
vertex `j` on the element with corner coordinates `pts`, via the
reference-triangle change of variables. -/
def gradBasis {α : Type} [Field α] (pts : Fin 3 → α × α) (j : Fin 3) : α × α :=
  let jacob := det_jacobian pts
  let dx_de := 1 / 2 * ((pts 2).1 - (pts 1).1)
  let dx_dn := 1 / 2 * ((pts 0).1 - (pts 1).1)
  let dy_de := 1 / 2 * ((pts 2).2 - (pts 1).2)
  let dy_dn := 1 / 2 * ((pts 0).2 - (pts 1).2)
  match j with
  | 0 => (1 / 2 / jacob * (-dy_de), 1 / 2 / jacob * dx_de)
  | 1 => (1 / 2 / jacob * (-dy_dn + dy_de), 1 / 2 / jacob * (dx_dn - dx_de))
  | 2 => (1 / 2 / jacob * dy_dn, 1 / 2 / jacob * (-dx_dn))

/-- The physical-coordinate gradient of the previous-step field restricted
to the element, from its three corner values `u`. -/
def gradPrevField {α : Type} [Field α] (pts : Fin 3 → α × α) (u : Fin 3 → α) : α × α :=
  let jacob := det_jacobian pts
  let dx_de := 1 / 2 * ((pts 2).1 - (pts 1).1)
  let dx_dn := 1 / 2 * ((pts 0).1 - (pts 1).1)
  let dy_de := 1 / 2 * ((pts 2).2 - (pts 1).2)
  let dy_dn := 1 / 2 * ((pts 0).2 - (pts 1).2)
  let du_de := 1 / 2 * (u 2 - u 1)
  let du_dn := 1 / 2 * (u 0 - u 1)
  (1 / jacob * (dy_dn * du_de - dy_de * du_dn),
   1 / jacob * (-dx_dn * du_de + dx_de * du_dn))

/-- The linear-triangle weak-form gradient-dot-gradient stiffness action
for vertex `j`, scaled by the element's Jacobian: `2 |J| (∇φⱼ · ∇u)`. -/
def stiffnessAction {α : Type} [Field α] (pts : Fin 3 → α × α) (u : Fin 3 → α)
    (j : Fin 3) : α :=
  2 * det_jacobian pts * ((gradBasis pts j).1 * (gradPrevField pts u).1
    + (gradBasis pts j).2 * (gradPrevField pts u).2)

/-- The exact value the step kernel adds at vertex `j` of an element:
`-k * dt * invMass[point]` times the Jacobian-scaled stiffness action. -/
def elementContribution {α : Type} [Field α] (mesh : Mesh α)
    (prev_points inv_mass : ℕ → α) (k dt : α) (e : Region) (j : Fin 3) : α :=
  -k * dt * inv_mass (e.get j)
    * stiffnessAction (fun i => mesh.point (e.get i))
        (fun i => prev_points (e.get i)) j

/-- A single invocation of `ElementContributionFunctor` on the solver
state: it reads the previous-step buffer, the inverse-mass buffer and the
element geometry, and scatter-adds its three contributions into the
current buffer. -/
def ElementContributionFunctor.apply {α : Type} [Field α] (mesh : Mesh α) (k dt : α)
    (s : SolverState α) (e : Region) : SolverState α :=
  let cur :=
    scatterList (elementContribs mesh s.prev_point_weights s.point_mass_inv k dt e)
      s.current_point_weights
  { s with current_point_weights := cur }

/-! ## Boundary fixing (`Solver::fix_boundary`, solver.cpp:96-111) -/

/-- The buffer effect of `Solver::fix_boundary`: for each boundary-edge
entry, fetch the edge and write `0` at both of its endpoints
(`current_points(e[0]) = 0; current_points(e[1]) = 0;`), likely
double-setting shared points. Serialized in entry order; every write
stores the same value, so order is immaterial. -/
def fixBoundaryWeights {α : Type} [Zero α] (mesh : Mesh α) (w : ℕ → α) : ℕ → α :=
  mesh.boundary_edges.foldl
    (fun cur edge_id =>
      let e := mesh.edge edge_id
      Function.update (Function.update cur e.1 0) e.2 0) w

/-- `Solver::fix_boundary` on the solver state: zeroes the boundary-edge
endpoints of `current_point_weights` and touches nothing else. -/
def fix_boundary {α : Type} [Zero α] (mesh : Mesh α) (s : SolverState α) :
    SolverState α :=
  { s with current_point_weights := fixBoundaryWeights mesh s.current_point_weights }

/-- Whether point `p` occurs as an endpoint (either endpoint) of some
boundary edge of the mesh. -/
def isBoundaryEndpoint {α : Type} (mesh : Mesh α) (p : ℕ) : Bool :=
  mesh.boundary_edges.any (fun edge_id =>
    (mesh.edge edge_id).1 == p || (mesh.edge edge_id).2 == p)

/-! ## Mesh loading (`src/mesh/mesh.cpp`, `load_meshes_from_grd_file`) -/

/-- The pre-parsed content of a `.grd` mesh file (text tokenization is the
external ingestion collaborator's concern): the point listing
(`<id>: <x> <y>`), the edge listing (`<id>: <p0> <p1>`), the region
listing (`<id>: <p0> <p1> <p2>`), and the boundary segments, each an
ordered list of edge IDs. The header counts are the listing lengths. -/
structure GrdData (α : Type) where
  pointLines : List (ℕ × α × α)
  edgeLines : List (ℕ × ℕ × ℕ)
  regionLines : List (ℕ × Region)
  boundarySegments : List (List ℕ)

/-- The loader's per-listing ID check: the line read at loop counter
`expected` must carry that ID on its left-hand side
(`if (read_id != expected) throw runtime_error(...)`); otherwise the
listing's payloads are collected. -/
def checkIdsFrom {β : Type} (expected : ℕ) : List (ℕ × β) → Except String (List β)
  | [] => Except.ok []
  | (lineId, v) :: rest =>
    if lineId = expected then
      match checkIdsFrom (expected + 1) rest with
      | Except.ok vs => Except.ok (v :: vs)
      | Except.error msg => Except.error msg
    else
      Except.error "Found unexpected / out-of-order ID"

/-- `load_meshes_from_grd_file` on pre-parsed content, with `fuzz = false`
(point jitter off, as in `main.cpp`): read the point, edge and region
listings with their ID checks (the boundary-segment indices are read but
not checked), build the boundary-edge CSR entries by concatenating the
segments, mark boundary-point flags by iterating the boundary edges, and
count the flagged points. The marking loop is transcribed faithfully:
the source executes `host_mesh.boundary_points(e[0]) = true;` and then
`host_mesh.boundary_points(e[0] = true);` — the second statement assigns
only into the local copy `e` and stores nothing into the flag view, so
each boundary edge flags only its first endpoint. -/
def load_meshes_from_grd_file {α : Type} (g : GrdData α) : Except String (Mesh α) :=
  match checkIdsFrom 0 g.pointLines with
  | Except.error msg => Except.error msg
  | Except.ok points =>
    match checkIdsFrom 0 g.edgeLines with
    | Except.error msg => Except.error msg
    | Except.ok edges =>
      match checkIdsFrom 0 g.regionLines with
      | Except.error msg => Except.error msg
      | Except.ok regions =>
        let boundary_edges := g.boundarySegments.flatten
        let base : Mesh α :=
          { points := points, edges := edges, regions := regions
          , boundary_edges := boundary_edges }
        let flags := boundary_edges.foldl
          (fun bp edge_id => Function.update bp (base.edge edge_id).1 true)
          (fun _ => false)
        let nb := (List.range base.point_count).countP flags
        Except.ok { base with boundary_points := flags, n_boundary_points := nb }

/-- A minimal well-formed mesh file: two points, one edge `(0, 1)`, no
regions, and one boundary segment consisting of that edge. -/
def g6 : GrdData ℚ :=
  { pointLines := [(0, 0, 0), (1, 1, 0)]
  , edgeLines := [(0, 0, 1)]
  , regionLines := []
  , boundarySegments := [[0]] }

/-! ## Theorems -/

theorem scatterList_apply {α : Type} [AddCommMonoid α] (cs : List (ℕ × α))
    (w : ℕ → α) (p : ℕ) :
    scatterList cs w p = w p + listContribAt cs p := by
  induction cs generalizing w with
  | nil => simp [scatterList, listContribAt]
  | cons c cs ih =>
    simp only [scatterList, List.foldl_cons] at *
    rw [ih]
    by_cases h : c.1 = p
    · subst h
      simp [listContribAt, List.filter_cons, Function.update_same, add_assoc]
    · simp [listContribAt, List.filter_cons, Function.update_noteq (Ne.symm h), h]

theorem runKernel_apply {α : Type} [AddCommMonoid α] (f : Region → List (ℕ × α))
    (d : List Region) (w : ℕ → α) (p : ℕ) :
    runKernel f d w p = w p + dispatchContribAt f d p := by
  induction d generalizing w with
  | nil => simp [runKernel, dispatchContribAt]
  | cons e d ih =>
    simp only [runKernel, List.foldl_cons] at *
    rw [ih, scatterList_apply]
    simp [dispatchContribAt, add_assoc]

/-- The result of a scatter-add kernel run depends on the dispatch list
only up to permutation: exact addition commutes, so any execution order
of the per-element contributions produces the same buffer. -/
theorem runKernel_perm {α : Type} [AddCommMonoid α] (f : Region → List (ℕ × α))
    {d₁ d₂ : List Region} (h : List.Perm d₁ d₂) (w : ℕ → α) :
    runKernel f d₁ w = runKernel f d₂ w := by
  funext p
  rw [runKernel_apply, runKernel_apply]
  exact congrArg (w p + ·) ((h.map _).sum_eq)

theorem foldl_bucketStep (colors : ℕ → ℕ) (l : List ℕ) (b : ℕ → List ℕ) (c : ℕ) :
    (l.foldl (bucketStep colors) b) c = b c ++ l.filter (fun i => colors i - 1 == c) := by
  induction l generalizing b with
  | nil => simp
  | cons i l ih =>
    rw [List.foldl_cons, ih, List.filter_cons]
    by_cases h : colors i - 1 = c
    · simp [bucketStep, h]
    · simp [bucketStep, h]

theorem colorBuckets_eq_filter (colors : ℕ → ℕ) (n c : ℕ) :
    colorBuckets colors n c = (List.range n).filter (fun i => colors i - 1 == c) := by
  rw [colorBuckets, foldl_bucketStep]
  exact List.nil_append _

theorem flatMap_range_slice {β : Type} (g : ℕ → List β) (nc c : ℕ) (h : c < nc) :
    ((((List.range nc).flatMap g).drop
        (((List.range c).map (fun x => (g x).length)).sum)).take (g c).length) = g c := by
  obtain ⟨k, rfl⟩ : ∃ k, nc = c + (k + 1) := ⟨nc - c - 1, by omega⟩
  rw [List.range_add, List.flatMap_append,
    List.drop_left' (by rw [List.length_flatMap]; rfl),
    List.range_succ_eq_map, List.map_cons, List.flatMap_cons, Nat.add_zero]
  exact List.take_left _ _

theorem do_color_member_count {α : Type} (mesh : Mesh α) (colors : ℕ → ℕ) (nc c : ℕ) :
    (MeshColorMap.do_color mesh colors nc).member_count c
      = (colorBuckets colors mesh.region_count c).length := by
  simp [MeshColorMap.member_count, MeshColorMap.do_color, List.range_succ]

/-- For `c < n_colors`, the subview `color_member_ids(c)` is exactly the
bucket of elements the counting sort placed for color `c`. -/
theorem do_color_member_ids {α : Type} (mesh : Mesh α) (colors : ℕ → ℕ) (nc c : ℕ)
    (h : c < nc) :
    (MeshColorMap.do_color mesh colors nc).color_member_ids c
      = colorBuckets colors mesh.region_count c := by
  rw [MeshColorMap.color_member_ids, do_color_member_count]
  simp only [MeshColorMap.do_color]
  exact flatMap_range_slice _ nc c h

/-- The regions of a color class are the regions of its member IDs
(`color_members(place) = mesh.regions(color_member_ids(place))`). -/
theorem do_color_member_regions_eq_map {α : Type} (mesh : Mesh α) (colors : ℕ → ℕ)
    (nc c : ℕ) :
    (MeshColorMap.do_color mesh colors nc).color_member_regions c
      = ((MeshColorMap.do_color mesh colors nc).color_member_ids c).map mesh.region := by
  simp only [MeshColorMap.color_member_regions, MeshColorMap.color_member_ids,
    MeshColorMap.do_color]
  rw [← List.map_drop, ← List.map_take]

theorem count_bucket (colors : ℕ → ℕ) (n i c : ℕ) (hi : i < n) :
    (colorBuckets colors n c).count i = if colors i - 1 = c then 1 else 0 := by
  rw [colorBuckets_eq_filter]
  by_cases h : colors i - 1 = c
  · rw [if_pos h, List.count_filter (by simpa using h)]
    exact List.count_eq_one_of_mem (List.nodup_range n) (List.mem_range.mpr hi)
  · rw [if_neg h]
    refine List.count_eq_zero_of_not_mem (fun hmem => ?_)
    exact h (by simpa using (List.mem_filter.mp hmem).2)

theorem sum_indicator_range (nc c0 : ℕ) (h : c0 < nc) :
    ((List.range nc).map (fun c => if c0 = c then (1 : ℕ) else 0)).sum = 1 := by
  induction nc with
  | zero => omega
  | succ k ih =>
    rw [List.range_succ, List.map_append, List.sum_append]
    by_cases hc : c0 = k
    · subst hc
      have hz : ((List.range c0).map (fun c => if c0 = c then (1 : ℕ) else 0)).sum = 0 := by
        refine List.sum_eq_zero (fun x hx => ?_)
        obtain ⟨c, hcmem, rfl⟩ := List.mem_map.mp hx
        have hlt := List.mem_range.mp hcmem
        simp [Ne.symm (Nat.ne_of_lt hlt)]
      simp [hz]
    · have hk : c0 < k := by omega
      simp [ih hk, hc]

theorem sum_count_buckets (colors : ℕ → ℕ) (n nc i : ℕ) (hi : i < n)
    (hc : colors i - 1 < nc) :
    ((List.range nc).map (fun c => (colorBuckets colors n c).count i)).sum = 1 := by
  have hmap : (List.range nc).map (fun c => (colorBuckets colors n c).count i)
      = (List.range nc).map (fun c => if colors i - 1 = c then 1 else 0) :=
    List.map_congr_left (fun c _ => count_bucket colors n i c hi)
  rw [hmap]
  exact sum_indicator_range nc _ hc

/-- The color-contiguous flat ID array built by `do_color` is a
permutation of all element IDs, provided the library coloring assigned
every element a color in `[1, n_colors]`. -/
theorem color_ids_perm {α : Type} (mesh : Mesh α) (colors : ℕ → ℕ) (nc : ℕ)
    (h1 : ∀ i, i < mesh.region_count → 1 ≤ colors i ∧ colors i ≤ nc) :
    List.Perm (MeshColorMap.do_color mesh colors nc).color_ids
      (List.range mesh.region_count) := by
  rw [List.perm_iff_count]
  intro i
  by_cases hi : i < mesh.region_count
  · simp only [MeshColorMap.do_color]
    rw [List.count_flatMap]
    have hc : colors i - 1 < nc := by have := h1 i hi; omega
    have : (List.map (List.count i ∘ colorBuckets colors mesh.region_count)
        (List.range nc)).sum
        = ((List.range nc).map
            (fun c => (colorBuckets colors mesh.region_count c).count i)).sum := rfl
    rw [this, sum_count_buckets colors mesh.region_count nc i hi hc,
      List.count_eq_one_of_mem (List.nodup_range _) (List.mem_range.mpr hi)]
  · have hnot : i ∉ (MeshColorMap.do_color mesh colors nc).color_ids := by
      intro hmem
      simp only [MeshColorMap.do_color, List.mem_flatMap] at hmem
      obtain ⟨c, _, hmem⟩ := hmem
      rw [colorBuckets_eq_filter] at hmem
      exact hi (List.mem_range.mp (List.mem_filter.mp hmem).1)
    rw [List.count_eq_zero_of_not_mem hnot,
      List.count_eq_zero_of_not_mem (fun hmem => hi (List.mem_range.mp hmem))]

theorem mem_colorBuckets {colors : ℕ → ℕ} {n i c : ℕ} :
    i ∈ colorBuckets colors n c ↔ i < n ∧ colors i - 1 = c := by
  rw [colorBuckets_eq_filter, List.mem_filter, List.mem_range]
  simp

theorem flatMap_congr_left {β γ : Type} (l : List β) (f g : β → List γ)
    (h : ∀ a ∈ l, f a = g a) : l.flatMap f = l.flatMap g := by
  induction l with
  | nil => rfl
  | cons x l ih =>
    rw [List.flatMap_cons, List.flatMap_cons, h x (List.mem_cons_self x l),
      ih (fun a ha => h a (List.mem_cons_of_mem x ha))]

/-- Claim C1: coloring soundness. For every mesh and the coloring produced
by `MeshColorMap` on it (from a library color assignment that gives
distinct colors in `[1, n_colors]` to elements sharing a point), and for
every color index `c` in `[0, color_count())`, no two distinct regions in
the color class `c` — the subview `color_member_regions(c)` — have any
vertex point ID in common among their point-ID triples. -/
theorem coloring_soundness {α : Type} (mesh : Mesh α) (colors : ℕ → ℕ) (nc : ℕ)
    (h1 : ∀ i, i < mesh.region_count → 1 ≤ colors i ∧ colors i ≤ nc)
    (h2 : ∀ i, i < mesh.region_count → ∀ j, j < mesh.region_count → i ≠ j →
      sharesPoint (mesh.region i) (mesh.region j) → colors i ≠ colors j)
    (c : ℕ) (hc : c < nc) (a b : ℕ)
    (ha : a < ((MeshColorMap.do_color mesh colors nc).color_member_regions c).length)
    (hb : b < ((MeshColorMap.do_color mesh colors nc).color_member_regions c).length)
    (hab : a ≠ b) :
    ¬ sharesPoint
      (((MeshColorMap.do_color mesh colors nc).color_member_regions c).getD a ⟨0, 0, 0⟩)
      (((MeshColorMap.do_color mesh colors nc).color_member_regions c).getD b ⟨0, 0, 0⟩) := by
  have hreg : (MeshColorMap.do_color mesh colors nc).color_member_regions c
      = (colorBuckets colors mesh.region_count c).map mesh.region := by
    rw [do_color_member_regions_eq_map, do_color_member_ids mesh colors nc c hc]
  rw [hreg] at ha hb ⊢
  have ha' : a < (colorBuckets colors mesh.region_count c).length := by simpa using ha
  have hb' : b < (colorBuckets colors mesh.region_count c).length := by simpa using hb
  rw [List.getD_eq_getElem _ _ ha, List.getD_eq_getElem _ _ hb,
    List.getElem_map, List.getElem_map]
  intro hshare
  have hnd : (colorBuckets colors mesh.region_count c).Nodup := by
    rw [colorBuckets_eq_filter]
    exact (List.nodup_range _).filter _
  have hia := mem_colorBuckets.mp (List.getElem_mem ha')
  have hib := mem_colorBuckets.mp (List.getElem_mem hb')
  have hne : (colorBuckets colors mesh.region_count c)[a]
      ≠ (colorBuckets colors mesh.region_count c)[b] :=
    fun he => hab (hnd.getElem_inj_iff.mp he)
  have hca := (h1 _ hia.1).1
  have hcb := (h1 _ hib.1).1
  exact h2 _ hia.1 _ hib.1 hne hshare (by omega)

theorem coloring_soundness_witness :
    (∀ i, i < meshW.region_count → 1 ≤ colorsW i ∧ colorsW i ≤ 1) ∧
    ¬ sharesPoint
      (((MeshColorMap.do_color meshW colorsW 1).color_member_regions 0).getD 0 ⟨0, 0, 0⟩)
      (((MeshColorMap.do_color meshW colorsW 1).color_member_regions 0).getD 1 ⟨0, 0, 0⟩) :=
  ⟨by decide, coloring_soundness meshW colorsW 1 (by decide) (by decide) 0 (by decide)
    0 1 (by decide) (by decide) (by decide)⟩

/-- Claim C3: coloring completeness (partition). For every mesh, the
coloring produced by `MeshColorMap` partitions all element IDs: every
element ID in `[0, region_count())` appears exactly once across the
`color_member_ids` of all colors, and the `member_count` values summed
over all colors equal `region_count()`. -/
theorem coloring_partition {α : Type} (mesh : Mesh α) (colors : ℕ → ℕ) (nc : ℕ)
    (h1 : ∀ i, i < mesh.region_count → 1 ≤ colors i ∧ colors i ≤ nc) :
    (∀ i, i < mesh.region_count →
      ((List.range nc).flatMap
        ((MeshColorMap.do_color mesh colors nc).color_member_ids)).count i = 1)
    ∧ ((List.range nc).map
        ((MeshColorMap.do_color mesh colors nc).member_count)).sum
      = mesh.region_count := by
  have hids : (List.range nc).flatMap
      ((MeshColorMap.do_color mesh colors nc).color_member_ids)
      = (MeshColorMap.do_color mesh colors nc).color_ids :=
    flatMap_congr_left _ _ _
      (fun c hcm => do_color_member_ids mesh colors nc c (List.mem_range.mp hcm))
  constructor
  · intro i hi
    rw [hids, (color_ids_perm mesh colors nc h1).count_eq,
      List.count_eq_one_of_mem (List.nodup_range _) (List.mem_range.mpr hi)]
  · have hmap : (List.range nc).map ((MeshColorMap.do_color mesh colors nc).member_count)
        = (List.range nc).map
            (fun c => (colorBuckets colors mesh.region_count c).length) :=
      List.map_congr_left (fun c _ => do_color_member_count mesh colors nc c)
    have hlen : ((List.range nc).flatMap (colorBuckets colors mesh.region_count)).length
        = mesh.region_count :=
      ((color_ids_perm mesh colors nc h1).length_eq).trans (List.length_range _)
    rw [hmap]
    exact (List.length_flatMap _ _).symm.trans hlen

theorem coloring_partition_witness :
    (∀ i, i < meshW.region_count → 1 ≤ colorsW i ∧ colorsW i ≤ 1) ∧
    ((∀ i, i < meshW.region_count →
      ((List.range 1).flatMap
        ((MeshColorMap.do_color meshW colorsW 1).color_member_ids)).count i = 1)
    ∧ ((List.range 1).map
        ((MeshColorMap.do_color meshW colorsW 1).member_count)).sum
      = meshW.region_count) :=
  ⟨by decide, coloring_partition meshW colorsW 1 (by decide)⟩

theorem runKernel_append {α : Type} [Add α] (f : Region → List (ℕ × α))
    (d₁ d₂ : List Region) (w : ℕ → α) :
    runKernel f (d₁ ++ d₂) w = runKernel f d₂ (runKernel f d₁ w) := by
  rw [runKernel, runKernel, runKernel, List.foldl_append]

theorem runKernel_flatMap {α β : Type} [Add α] (f : Region → List (ℕ × α))
    (g : β → List Region) (cs : List β) (w : ℕ → α) :
    cs.foldl (fun cur c => runKernel f (g c) cur) w = runKernel f (cs.flatMap g) w := by
  induction cs generalizing w with
  | nil => rfl
  | cons c cs ih =>
    rw [List.foldl_cons, List.flatMap_cons, ih, runKernel_append]

/-- Phase-separated execution over the color classes is the same as one
sequential pass over the concatenated color-class dispatch list. -/
theorem colored_distribute_work_eq {α : Type} [Add α] (M : MeshColorMap)
    (f : Region → List (ℕ × α)) (w : ℕ → α) :
    ColoredElementScatterAdd.distribute_work M f w
      = runKernel f (ColoredElementScatterAdd.dispatch M) w :=
  runKernel_flatMap f M.color_member_regions (List.range M.n_colors) w

theorem map_region_range {α : Type} (mesh : Mesh α) :
    (List.range mesh.region_count).map mesh.region = mesh.regions := by
  apply List.ext_getElem
  · simp [Mesh.region_count]
  · intro i h1 h2
    rw [List.getElem_map, List.getElem_range]
    exact List.getD_eq_getElem _ _ h2

theorem do_color_flatMap_ids {α : Type} (mesh : Mesh α) (colors : ℕ → ℕ) (nc : ℕ) :
    (List.range nc).flatMap ((MeshColorMap.do_color mesh colors nc).color_member_ids)
      = (MeshColorMap.do_color mesh colors nc).color_ids :=
  flatMap_congr_left _ _ _
    (fun c hcm => do_color_member_ids mesh colors nc c (List.mem_range.mp hcm))

/-- The colored dispatch sequence is a permutation of the atomic one,
whenever the library coloring is into `[1, n_colors]`. -/
theorem colored_dispatch_perm {α : Type} (mesh : Mesh α) (colors : ℕ → ℕ) (nc : ℕ)
    (h1 : ∀ i, i < mesh.region_count → 1 ≤ colors i ∧ colors i ≤ nc) :
    List.Perm (ColoredElementScatterAdd.dispatch (MeshColorMap.do_color mesh colors nc))
      (AtomicElementScatterAdd.dispatch mesh) := by
  have h2 : ColoredElementScatterAdd.dispatch (MeshColorMap.do_color mesh colors nc)
      = ((MeshColorMap.do_color mesh colors nc).color_ids).map mesh.region := by
    have hnc : (MeshColorMap.do_color mesh colors nc).n_colors = nc := rfl
    rw [ColoredElementScatterAdd.dispatch, hnc,
      flatMap_congr_left _ _ _
        (fun c hcm => do_color_member_regions_eq_map mesh colors nc c),
      ← List.map_flatMap, do_color_flatMap_ids]
  rw [h2, AtomicElementScatterAdd.dispatch]
  exact (color_ids_perm mesh colors nc h1).map _

/-- Claim C7: exactly-once dispatch. For every mesh (with a valid library
coloring for the colored pattern), a single `distribute_work(f)` call on
the atomic or the colored-sequential pattern invokes `f` on a sequence of
elements that is a permutation of the mesh's region list: every element
is processed exactly once — none skipped, none repeated. -/
theorem distribute_work_exactly_once {α : Type} (mesh : Mesh α) (colors : ℕ → ℕ)
    (nc : ℕ)
    (h1 : ∀ i, i < mesh.region_count → 1 ≤ colors i ∧ colors i ≤ nc) :
    List.Perm (AtomicElementScatterAdd.dispatch mesh) mesh.regions
    ∧ List.Perm
        (ColoredElementScatterAdd.dispatch (MeshColorMap.do_color mesh colors nc))
        mesh.regions := by
  have hatomic : AtomicElementScatterAdd.dispatch mesh = mesh.regions :=
    map_region_range mesh
  constructor
  · rw [hatomic]
  · exact (colored_dispatch_perm mesh colors nc h1).trans (hatomic ▸ List.Perm.refl _)

theorem distribute_work_exactly_once_witness :
    (∀ i, i < meshW2.region_count → 1 ≤ colorsW2 i ∧ colorsW2 i ≤ 2) ∧
    (List.Perm (AtomicElementScatterAdd.dispatch meshW2) meshW2.regions
     ∧ List.Perm
        (ColoredElementScatterAdd.dispatch (MeshColorMap.do_color meshW2 colorsW2 2))
        meshW2.regions) :=
  ⟨by decide, distribute_work_exactly_once meshW2 colorsW2 2 (by decide)⟩

/-- Claim C2: strategy interchangeability. For every mesh (with a valid
library coloring), every per-element kernel written against
`distribute_work` + `contribute`, and every initial buffer, dispatching
the kernel through the colored-sequential, atomic, and serial scatter-add
patterns yields the same final point-indexed array (contributions
modelled with exact commutative addition, so summation order does not
matter). -/
theorem strategy_interchangeable {α : Type} [AddCommMonoid α] (mesh : Mesh α)
    (colors : ℕ → ℕ) (nc : ℕ)
    (h1 : ∀ i, i < mesh.region_count → 1 ≤ colors i ∧ colors i ≤ nc)
    (f : Region → List (ℕ × α)) (w : ℕ → α) :
    ColoredElementScatterAdd.distribute_work (MeshColorMap.do_color mesh colors nc) f w
      = AtomicElementScatterAdd.distribute_work mesh f w
    ∧ SerialElementScatterAdd.distribute_work mesh f w
      = AtomicElementScatterAdd.distribute_work mesh f w := by
  constructor
  · rw [colored_distribute_work_eq]
    exact runKernel_perm f (colored_dispatch_perm mesh colors nc h1) w
  · rfl

theorem listContribAt_triple {α : Type} [AddCommMonoid α] (a b c p : ℕ) (x y z : α) :
    listContribAt [(a, x), (b, y), (c, z)] p
      = (if a = p then x else 0) + ((if b = p then y else 0) + (if c = p then z else 0)) := by
  by_cases ha : a = p <;> by_cases hb : b = p <;> by_cases hc : c = p <;>
    simp [listContribAt, List.filter_cons, ha, hb, hc]

theorem strategy_interchangeable_witness :
    (∀ i, i < meshW2.region_count → 1 ≤ colorsW2 i ∧ colorsW2 i ≤ 2) ∧
    (ColoredElementScatterAdd.distribute_work (MeshColorMap.do_color meshW2 colorsW2 2)
        (massContribs meshW2) (fun _ => 0)
      = AtomicElementScatterAdd.distribute_work meshW2 (massContribs meshW2) (fun _ => 0)
    ∧ SerialElementScatterAdd.distribute_work meshW2 (massContribs meshW2) (fun _ => 0)
      = AtomicElementScatterAdd.distribute_work meshW2 (massContribs meshW2)
          (fun _ => 0)) :=
  ⟨by decide, strategy_interchangeable meshW2 colorsW2 2 (by decide) (massContribs meshW2)
    (fun _ => 0)⟩

/-- Claim C5: mass-assembly postcondition. After `setup_mass_matrix` — a
full element scatter pass (through any execution order of the pattern's
dispatch, a permutation of the element list) followed by the in-place
inversion — every point entry `p < point_count()` holds the reciprocal of
the sum, over all mesh elements having `p` as a vertex, of the per-point
lumped contribution `(2/3) * |J|` of that element. The inversion applies
to the completed sum: it happens only after the whole scatter pass. -/
theorem mass_matrix_postcondition {α : Type} [Field α] (mesh : Mesh α)
    (dispatch : List Region)
    (hd : List.Perm dispatch ((List.range mesh.region_count).map mesh.region))
    (p : ℕ) (hp : p < mesh.point_count) :
    setup_mass_matrix mesh dispatch p = 1 / massTotal mesh p := by
  have hval : runKernel (massContribs mesh) dispatch (fun _ => 0) p = massTotal mesh p := by
    rw [congrFun (runKernel_perm (massContribs mesh) hd (fun _ => 0)) p,
      runKernel_apply, map_region_range]
    simp only [zero_add]
    refine congrArg List.sum (List.map_congr_left (fun e _ => ?_))
    simp only [massContribs]
    exact listContribAt_triple _ _ _ p _ _ _
  simp only [setup_mass_matrix]
  rw [if_pos hp, hval]

theorem mass_matrix_postcondition_witness :
    0 < meshW2.point_count ∧
    setup_mass_matrix meshW2 ((List.range meshW2.region_count).map meshW2.region) 0
      = 1 / massTotal meshW2 0 :=
  ⟨by decide,
    mass_matrix_postcondition meshW2 _ (List.Perm.refl _) 0 (by decide)⟩

/-- Claim C4: element contribution. A single invocation of the per-element
step kernel reads only the previous-step buffer, the inverse-mass buffer
and the element's geometry, and adds into the current buffer, at each of
the element's 3 vertex points, exactly
`-k * dt * invMass[point] * contribution`, where `contribution` is the
linear-triangle weak-form gradient-dot-gradient stiffness action for that
vertex scaled by the element's Jacobian; the previous buffer (and all
other solver state) is not modified. -/
theorem element_contribution_exact {α : Type} [Field α] (mesh : Mesh α) (k dt : α)
    (s : SolverState α) (e : Region) :
    (ElementContributionFunctor.apply mesh k dt s e).current_point_weights
      = (fun p => s.current_point_weights p
        + ((if e.get 0 = p then
              elementContribution mesh s.prev_point_weights s.point_mass_inv k dt e 0
            else 0)
          + ((if e.get 1 = p then
              elementContribution mesh s.prev_point_weights s.point_mass_inv k dt e 1
            else 0)
            + (if e.get 2 = p then
              elementContribution mesh s.prev_point_weights s.point_mass_inv k dt e 2
            else 0))))
    ∧ (ElementContributionFunctor.apply mesh k dt s e).prev_point_weights
        = s.prev_point_weights
    ∧ (ElementContributionFunctor.apply mesh k dt s e).point_mass_inv
        = s.point_mass_inv
    ∧ (ElementContributionFunctor.apply mesh k dt s e).n_total_steps
        = s.n_total_steps := by
  refine ⟨?_, rfl, rfl, rfl⟩
  funext p
  have hlist : elementContribs mesh s.prev_point_weights s.point_mass_inv k dt e
      = [(e.get 0,
          elementContribution mesh s.prev_point_weights s.point_mass_inv k dt e 0),
         (e.get 1,
          elementContribution mesh s.prev_point_weights s.point_mass_inv k dt e 1),
         (e.get 2,
          elementContribution mesh s.prev_point_weights s.point_mass_inv k dt e 2)] := rfl
  show scatterList (elementContribs mesh s.prev_point_weights s.point_mass_inv k dt e)
    s.current_point_weights p = _
  rw [scatterList_apply, hlist, listContribAt_triple]

theorem fixBoundaryWeights_apply {α : Type} [Zero α] (mesh : Mesh α) (w : ℕ → α)
    (p : ℕ) :
    fixBoundaryWeights mesh w p
      = if isBoundaryEndpoint mesh p then 0 else w p := by
  rw [fixBoundaryWeights, isBoundaryEndpoint]
  induction mesh.boundary_edges generalizing w with
  | nil => simp
  | cons eid rest ih =>
    rw [List.foldl_cons, List.any_cons, ih]
    by_cases hr : rest.any (fun edge_id =>
        ((mesh.edge edge_id).1 == p || (mesh.edge edge_id).2 == p)) = true
    · simp [hr]
    · have hrf : rest.any (fun edge_id =>
          ((mesh.edge edge_id).1 == p || (mesh.edge edge_id).2 == p)) = false := by
        simpa using hr
      rw [if_neg hr, hrf, Bool.or_false, Function.update_apply, Function.update_apply]
      by_cases h2 : p = (mesh.edge eid).2
      · simp [h2]
      · by_cases h1 : p = (mesh.edge eid).1
        · simp [h1, h2]
        · simp [h1, h2, Ne.symm h1, Ne.symm h2]

/-- Claim C10: `fix_boundary` frame effect. A call to `fix_boundary`
writes 0 into `current_point_weights` exactly at the point IDs occurring
as endpoints of boundary edges, leaves every other current entry
unchanged, and does not modify `prev_point_weights`, `point_mass_inv`,
or the step counter. -/
theorem fix_boundary_frame {α : Type} [Zero α] (mesh : Mesh α) (s : SolverState α) :
    (fix_boundary mesh s).current_point_weights
      = (fun p => if isBoundaryEndpoint mesh p then 0 else s.current_point_weights p)
    ∧ (fix_boundary mesh s).prev_point_weights = s.prev_point_weights
    ∧ (fix_boundary mesh s).point_mass_inv = s.point_mass_inv
    ∧ (fix_boundary mesh s).n_total_steps = s.n_total_steps :=
  ⟨funext (fun p => fixBoundaryWeights_apply mesh s.current_point_weights p),
    rfl, rfl, rfl⟩

/-- Claim C8: boundary-clamp idempotence. From any solver state, calling
`fix_boundary` twice in immediate succession leaves the whole solver
state (in particular `current_point_weights`) equal to a single call. -/
theorem fix_boundary_idempotent {α : Type} [Zero α] (mesh : Mesh α)
    (s : SolverState α) :
    fix_boundary mesh (fix_boundary mesh s) = fix_boundary mesh s := by
  have hw : fixBoundaryWeights mesh (fixBoundaryWeights mesh s.current_point_weights)
      = fixBoundaryWeights mesh s.current_point_weights := by
    funext p
    rw [fixBoundaryWeights_apply, fixBoundaryWeights_apply]
    by_cases h : isBoundaryEndpoint mesh p = true <;> simp [h]
  show SolverState.mk
      (fixBoundaryWeights mesh (fixBoundaryWeights mesh s.current_point_weights))
      s.prev_point_weights s.point_mass_inv s.n_total_steps
    = SolverState.mk (fixBoundaryWeights mesh s.current_point_weights)
      s.prev_point_weights s.point_mass_inv s.n_total_steps
  rw [hw]

theorem checkIdsFrom_ok_iff {β : Type} (lines : List (ℕ × β)) (e : ℕ) :
    (∃ vs, checkIdsFrom e lines = Except.ok vs)
      ↔ ∀ i, i < lines.length → (lines.map Prod.fst).getD i 0 = e + i := by
  induction lines generalizing e with
  | nil =>
    constructor
    · intro _ i hi
      simp at hi
    · intro _
      exact ⟨[], rfl⟩
  | cons hd tl ih =>
    obtain ⟨lid, v⟩ := hd
    rw [checkIdsFrom]
    by_cases h : lid = e
    · rw [if_pos h]
      cases hrec : checkIdsFrom (e + 1) tl with
      | ok vs' =>
        have htl := (ih (e + 1)).mp ⟨vs', hrec⟩
        constructor
        · intro _ i hi
          cases i with
          | zero => simpa using h
          | succ i' =>
            have hi' : i' < tl.length := by simpa using hi
            have := htl i' hi'
            simp only [List.map_cons, List.getD_cons_succ]
            omega
        · intro _
          exact ⟨v :: vs', rfl⟩
      | error msg =>
        constructor
        · rintro ⟨vs, hvs⟩
          exact Except.noConfusion hvs
        · intro hall
          exfalso
          have htl : ∀ i, i < tl.length → (tl.map Prod.fst).getD i 0 = (e + 1) + i := by
            intro i hi
            have := hall (i + 1) (by simpa using Nat.succ_lt_succ hi)
            simp only [List.map_cons, List.getD_cons_succ] at this
            omega
          obtain ⟨vs, hvs⟩ := (ih (e + 1)).mpr htl
          rw [hrec] at hvs
          exact Except.noConfusion hvs
    · rw [if_neg h]
      constructor
      · rintro ⟨vs, hvs⟩
        exact Except.noConfusion hvs
      · intro hall
        exfalso
        have h0 := hall 0 (by simp)
        simp only [List.map_cons, List.getD_cons_zero, Nat.add_zero] at h0
        exact h h0

/-- The listing passes the loader's check exactly when its left-hand IDs
are dense and strictly ascending from 0 (the `i`-th line carries ID `i`). -/
theorem checkIds_ok_iff {β : Type} (lines : List (ℕ × β)) :
    (∃ vs, checkIdsFrom 0 lines = Except.ok vs)
      ↔ ∀ i, i < lines.length → (lines.map Prod.fst).getD i 0 = i := by
  rw [checkIdsFrom_ok_iff]
  constructor <;> intro h i hi <;> have := h i hi <;> omega

theorem loader_ok_iff {α : Type} (g : GrdData α) :
    (∃ m, load_meshes_from_grd_file g = Except.ok m)
      ↔ ((∀ i, i < g.pointLines.length → (g.pointLines.map Prod.fst).getD i 0 = i)
        ∧ (∀ i, i < g.edgeLines.length → (g.edgeLines.map Prod.fst).getD i 0 = i)
        ∧ (∀ i, i < g.regionLines.length → (g.regionLines.map Prod.fst).getD i 0 = i)) := by
  cases hp : checkIdsFrom 0 g.pointLines with
  | error msg =>
    constructor
    · rintro ⟨m, hm⟩
      rw [load_meshes_from_grd_file, hp] at hm
      exact Except.noConfusion hm
    · rintro ⟨h1, _, _⟩
      obtain ⟨vs, hvs⟩ := (checkIds_ok_iff g.pointLines).mpr h1
      rw [hp] at hvs
      exact Except.noConfusion hvs
  | ok points =>
    cases he : checkIdsFrom 0 g.edgeLines with
    | error msg =>
      constructor
      · rintro ⟨m, hm⟩
        rw [load_meshes_from_grd_file, hp, he] at hm
        exact Except.noConfusion hm
      · rintro ⟨_, h2, _⟩
        obtain ⟨vs, hvs⟩ := (checkIds_ok_iff g.edgeLines).mpr h2
        rw [he] at hvs
        exact Except.noConfusion hvs
    | ok edges =>
      cases hr : checkIdsFrom 0 g.regionLines with
      | error msg =>
        constructor
        · rintro ⟨m, hm⟩
          rw [load_meshes_from_grd_file, hp, he, hr] at hm
          exact Except.noConfusion hm
        · rintro ⟨_, _, h3⟩
          obtain ⟨vs, hvs⟩ := (checkIds_ok_iff g.regionLines).mpr h3
          rw [hr] at hvs
          exact Except.noConfusion hvs
      | ok regions =>
        constructor
        · intro _
          refine ⟨(checkIds_ok_iff g.pointLines).mp ⟨points, hp⟩,
            (checkIds_ok_iff g.edgeLines).mp ⟨edges, he⟩,
            (checkIds_ok_iff g.regionLines).mp ⟨regions, hr⟩⟩
        · intro _
          rw [load_meshes_from_grd_file, hp, he, hr]
          exact ⟨_, rfl⟩

/-- Claim C9: loader ID-ordering errors. `load_meshes_from_grd_file`
raises its fatal parse error if and only if, in the point, edge, or
region listings, some line's left-hand ID differs from its 0-based
strictly ascending position; listings whose IDs are dense and strictly
ascending pass the checks without error. -/
theorem loader_id_check {α : Type} (g : GrdData α) :
    (∃ msg, load_meshes_from_grd_file g = Except.error msg)
      ↔ ¬ ((∀ i, i < g.pointLines.length → (g.pointLines.map Prod.fst).getD i 0 = i)
        ∧ (∀ i, i < g.edgeLines.length → (g.edgeLines.map Prod.fst).getD i 0 = i)
        ∧ (∀ i, i < g.regionLines.length → (g.regionLines.map Prod.fst).getD i 0 = i)) := by
  rw [← loader_ok_iff]
  cases hload : load_meshes_from_grd_file g with
  | error msg =>
    constructor
    · rintro - ⟨m, hm⟩
      exact Except.noConfusion hm
    · intro _
      exact ⟨msg, rfl⟩
  | ok m =>
    constructor
    · rintro ⟨msg, hmsg⟩
      exact Except.noConfusion hmsg
    · intro hne
      exact (hne ⟨m, rfl⟩).elim

/-- Claim C6 (code evidence): on a mesh whose single boundary edge is
`(0, 1)`, the loader flags point 0 but leaves point 1's boundary flag
false even though point 1 is an endpoint of a boundary edge, and
`n_boundary_points` is 1 — the second write of the marking loop,
`boundary_points(e[0] = true)`, assigns only into the local edge copy
and never marks `e[1]`. -/
theorem boundary_flag_second_endpoint_missed :
    ∃ m : Mesh ℚ, load_meshes_from_grd_file g6 = Except.ok m
      ∧ m.edges = [(0, 1)]
      ∧ m.boundary_edges = [0]
      ∧ m.boundary_points 0 = true
      ∧ m.boundary_points 1 = false
      ∧ isBoundaryEndpoint m 1 = true
      ∧ m.n_boundary_points = 1 := by
  refine ⟨(load_meshes_from_grd_file g6).toOption.getD default, rfl, ?_, ?_, ?_, ?_, ?_, ?_⟩
  · decide
  · decide
  · decide
  · decide
  · decide
  · decide
